import Mathlib

/-!
# Verification of the HQQ core quantizer (`hqq/core/quantize.py`)

A shallow embedding of the half-quadratic quantizer core. Tensor values are
modelled as exact rationals (the source computes in float32; the algebraic
claims abstract floating-point rounding to exact arithmetic). A tensor is a
flat row-major list of values together with a dtype tag and a 2-D shape;
`reshape` on a contiguous tensor is a shape-tag change, and `Tensor.view`
(byte reinterpretation) is modelled as a dtype-tag change that keeps the
payload, since the claims only concern whether and how the view is applied
and undone.

Source of authority: `src/hqq/core/quantize.py`. The `BitPack` codecs
(`hqq/core/bitpack.py`) and the proximal optimizer (`hqq/core/optimize.py`)
are referenced by that file but are not under `src/`; they are modelled
from the specification (sections 4.1 and 4.2) where indicated.
-/

namespace HQQ

/-- Tensor element types used by the core (spec section 3). -/
inductive DType where
  | float32
  | float16
  | bfloat16
  | uint8
  | int32
  | int8
deriving DecidableEq, Repr

/-- Bit width of a dtype, in bits. -/
def DType.bitWidth : DType → ℕ
  | .float32 => 32
  | .float16 => 16
  | .bfloat16 => 16
  | .uint8 => 8
  | .int32 => 32
  | .int8 => 8

/-- The closed set of packing identifiers (keys of `Quantizer.pack`,
`Quantizer.unpack` and `Quantizer.unpack_view_dtype`, quantize.py lines
50-72). -/
inductive Packing where
  | p8bit_u8
  | p4bit_u8
  | p3bit_32
  | p2bit_u8
  | p1bit_u8
deriving DecidableEq, Repr

/-- The string identifier of a packing, as it appears in the source maps. -/
def Packing.id : Packing → String
  | .p8bit_u8 => "8bit_u8"
  | .p4bit_u8 => "4bit_u8"
  | .p3bit_32 => "3bit_32"
  | .p2bit_u8 => "2bit_u8"
  | .p1bit_u8 => "1bit_u8"

/-- `Quantizer.unpack_view_dtype` (quantize.py lines 66-72): the container
element type of each packing. -/
def Packing.unpackViewDtype : Packing → DType
  | .p8bit_u8 => .uint8
  | .p4bit_u8 => .uint8
  | .p3bit_32 => .int32
  | .p2bit_u8 => .uint8
  | .p1bit_u8 => .uint8

/-- Number of codes stored per container element (spec section 4.1 table). -/
def Packing.ratio : Packing → ℕ
  | .p8bit_u8 => 1
  | .p4bit_u8 => 2
  | .p3bit_32 => 10
  | .p2bit_u8 => 4
  | .p1bit_u8 => 8

/-- Bits occupied by one code inside the container (spec section 4.1). -/
def Packing.bits : Packing → ℕ
  | .p8bit_u8 => 8
  | .p4bit_u8 => 4
  | .p3bit_32 => 3
  | .p2bit_u8 => 2
  | .p1bit_u8 => 1

/-- `Quantizer.SUPPORTED_BITS = [8, 6, 5, 4, 3, 2, 1.58, 1]` (quantize.py
line 36), as a closed enumeration. -/
inductive NBits where
  | b8
  | b6
  | b5
  | b4
  | b3
  | b2
  | b158
  | b1
deriving DecidableEq, Repr

/-- The numeric value of an `NBits` element (1.58 is the rational 79/50). -/
def NBits.val : NBits → ℚ
  | .b8 => 8
  | .b6 => 6
  | .b5 => 5
  | .b4 => 4
  | .b3 => 3
  | .b2 => 2
  | .b158 => 79 / 50
  | .b1 => 1

/-- `max_v = round(2**nbits - 1)` (quantize.py line 120), evaluated on the
eight supported widths. For the non-integer width 1.58 the Python float
computation gives `round(2**1.58 - 1) = round(1.9895...) = 2`. -/
def NBits.maxV : NBits → ℕ
  | .b8 => 255
  | .b6 => 63
  | .b5 => 31
  | .b4 => 15
  | .b3 => 7
  | .b2 => 3
  | .b158 => 2
  | .b1 => 1

/-- `Quantizer.bit_to_packing` (quantize.py lines 39-48). -/
def bitToPacking : NBits → Packing
  | .b8 => .p8bit_u8
  | .b6 => .p8bit_u8
  | .b5 => .p8bit_u8
  | .b4 => .p4bit_u8
  | .b3 => .p3bit_32
  | .b2 => .p2bit_u8
  | .b158 => .p2bit_u8
  | .b1 => .p1bit_u8

/-- Round-half-to-even on rationals: the rounding mode of `torch.round`
and of the Python built-in `round` used by the source. -/
def roundHalfEven (x : ℚ) : ℤ :=
  let f : ℤ := ⌊x⌋
  let frac : ℚ := x - f
  if frac < 1 / 2 then f
  else if 1 / 2 < frac then f + 1
  else if f % 2 = 0 then f else f + 1

/-- One quantized code: `(x).round_().clamp_(min_v, max_v)` with
`min_v = 0` (quantize.py lines 121 and 146), landing in `ℕ`. -/
def qcode (x : ℚ) (maxv : ℕ) : ℕ :=
  (max 0 (min (roundHalfEven x) (maxv : ℤ))).toNat

/-- The initial inverse scale and zero point of one group, from the group
min and max (quantize.py lines 125-129):
`scale = max_v / (max - min)`, replaced by `1.0` where
`|max - min| <= 1e-4`, clamped to at most `2e4`; `zero = -min * scale`.
In ℚ the division by a zero denominator yields 0 where torch yields inf;
both are discarded by the `where` substitution, whose condition covers
every zero denominator. -/
def szPair (maxv mn mx : ℚ) : ℚ × ℚ :=
  let denom := mx - mn
  let scale0 := maxv / denom
  let scale1 := if |denom| ≤ 1 / 10000 then 1 else scale0
  let scale2 := min scale1 20000
  (scale2, -mn * scale2)

/-! ## Grouping

`quantize` reshapes the flat weight to a 2-D grouped view and reduces
min/max along `axis` (quantize.py lines 104-118). In the flat row-major
model the grouped view is a pair of dimensions, and the group of a flat
index is its row (axis = 1, reduction over columns) or its column
(axis = 0, reduction over rows). -/

/-- The dimensions of the working view of `W` inside `quantize`
(quantize.py lines 104-110): the reshape to `[-1, group_size]` (axis = 1)
or `[group_size, -1]` (otherwise) is applied only when a `group_size` is
given and `channel_wise` is true; otherwise the original 2-D shape is
kept. -/
def groupedDims (rows cols : ℕ) (channelWise : Bool) (groupSize : Option ℕ)
    (axis : ℕ) : ℕ × ℕ :=
  match groupSize, channelWise with
  | some g, true =>
      if axis = 1 then ((rows * cols) / g, g) else (g, (rows * cols) / g)
  | _, _ => (rows, cols)

/-- The group (index into the scale/zero vectors) of flat index `i` in a
row-major view with `cols` columns: the row for axis = 1 (`min(axis=1)`
produces one value per row), the column for axis = 0. When
`channel_wise = false` the min/max are global scalars (quantize.py line
114) and every element belongs to the single group 0. -/
def gIndex (channelWise : Bool) (axis cols : ℕ) (i : ℕ) : ℕ :=
  if channelWise then (if axis = 1 then i / cols else i % cols) else 0

/-- Number of scale/zero entries: one per row (axis = 1) or per column
(axis = 0) of the grouped view, or a single global pair when
`channel_wise = false`. -/
def numGroups (channelWise : Bool) (axis : ℕ) (dims : ℕ × ℕ) : ℕ :=
  if channelWise then (if axis = 1 then dims.1 else dims.2) else 1

/-- Minimum of a list of rationals (0 on the empty list, which no valid
group produces). -/
def listMin : List ℚ → ℚ
  | [] => 0
  | x :: xs => xs.foldl min x

/-- Maximum of a list of rationals (0 on the empty list). -/
def listMax : List ℚ → ℚ
  | [] => 0
  | x :: xs => xs.foldl max x

/-- The flat indices belonging to group `j`. -/
def groupIdx (n : ℕ) (gof : ℕ → ℕ) (j : ℕ) : List ℕ :=
  (List.range n).filter (fun i => gof i = j)

/-- `_min` of group `j` (quantize.py lines 113-118). -/
def groupMin (W : List ℚ) (gof : ℕ → ℕ) (j : ℕ) : ℚ :=
  listMin ((groupIdx W.length gof j).map (fun i => W.getD i 0))

/-- `_max` of group `j` (quantize.py lines 113-118). -/
def groupMax (W : List ℚ) (gof : ℕ → ℕ) (j : ℕ) : ℚ :=
  listMax ((groupIdx W.length gof j).map (fun i => W.getD i 0))

/-- The initial (inverse scale, zero) of group `j`, including the
`round_zero` rounding of the zero point (quantize.py lines 125-133). -/
def initSZ (W : List ℚ) (gof : ℕ → ℕ) (maxv : ℚ) (roundZero : Bool)
    (j : ℕ) : ℚ × ℚ :=
  let p := szPair maxv (groupMin W gof j) (groupMax W gof j)
  (p.1, if roundZero then ((roundHalfEven p.2 : ℤ) : ℚ) else p.2)

/-- `W_q = (W * scale + zero).round_().clamp_(min_v, max_v)`
(quantize.py line 146; also spec section 4.2 step a), with the per-group
scale and zero broadcast over the elements of the group. -/
def qRoundList (W : List ℚ) (gof : ℕ → ℕ) (s z : List ℚ) (maxv : ℕ) :
    List ℕ :=
  (List.range W.length).map (fun i =>
    qcode (W.getD i 0 * s.getD (gof i) 0 + z.getD (gof i) 0) maxv)

/-! ## BitPack codecs

Modelled from the spec: `hqq/core/bitpack.py` is not under `src/`; the
codecs follow the layout rule of spec section 4.1: a flat code array of
length `L` is split into `r` stripes of length `L/r`, and the packed value
at position `i` is the sum over `k < r` of `C[k*(L/r)+i]` shifted left by
`b*(r-1-k)` bits (MSB-first by stripe). The shift-and-or accumulation is
written as a fold `acc * 2^b + digit` over the stripe digits. -/

/-- Combine the MSB-first digit list of one container word:
`((d0 * 2^b + d1) * 2^b + d2) ...`, equal to the sum of
`d_k * 2^(b*(r-1-k))`. -/
def packWord (b : ℕ) (ds : List ℕ) : ℕ :=
  ds.foldl (fun a d => a * 2 ^ b + d) 0

/-- Pack a flat code list into containers: stripe `k` contributes bits
`b*(r-1-k) .. b*(r-k)-1` of each container word (spec section 4.1). -/
def packStripes (b r : ℕ) (C : List ℕ) : List ℕ :=
  let step := C.length / r
  (List.range step).map (fun i =>
    packWord b ((List.range r).map (fun k => C.getD (k * step + i) 0)))

/-- Unpack containers back to the flat padded code list: position
`k*step + i` is bits `b*(r-1-k) .. b*(r-k)-1` of container `i` (mask and
shift, spec section 4.1). -/
def unpackStripes (b r : ℕ) (P : List ℕ) : List ℕ :=
  (List.range (r * P.length)).map (fun j =>
    P.getD (j % P.length) 0 / 2 ^ (b * (r - 1 - j / P.length)) % 2 ^ b)

/-- Modelled from the spec: `BitPack.pack_<width>` dispatch. The grouped
code tensor has `R` rows and `C` columns; for the 3-bit codec the rows are
first zero-padded to a multiple of 10 (spec section 4.1: the caller pads,
`unpack` returns the padded buffer, and the Quantizer trims on dequantize).
In the flat row-major model padding `R` rows to `10 * ceil(R/10)` appends
`(10 * ceil(R/10) - R) * C` zero codes, and the row stripes of the source
coincide with flat stripes of length `L/r` because whole rows are
contiguous. The 8-bit codec is the identity on code values (a `uint8`
cast). -/
def packCodes (p : Packing) (R C : ℕ) (codes : List ℕ) : List ℕ :=
  match p with
  | .p8bit_u8 => codes
  | .p4bit_u8 => packStripes 4 2 codes
  | .p3bit_32 =>
      packStripes 3 10 (codes ++ List.replicate ((10 * ((R + 9) / 10) - R) * C) 0)
  | .p2bit_u8 => packStripes 2 4 codes
  | .p1bit_u8 => packStripes 1 8 codes

/-- Modelled from the spec: `BitPack.unpack_<width>` dispatch (the inverse
mask-and-shift of `packCodes`; for 3-bit it returns the padded buffer). -/
def unpackCodes (p : Packing) (data : List ℕ) : List ℕ :=
  match p with
  | .p8bit_u8 => data
  | .p4bit_u8 => unpackStripes 4 2 data
  | .p3bit_32 => unpackStripes 3 10 data
  | .p2bit_u8 => unpackStripes 2 4 data
  | .p1bit_u8 => unpackStripes 1 8 data

/-! ## Proximal optimizer

Modelled from the spec: `hqq/core/optimize.py`
(`optimize_weights_proximal`) is not under `src/`. The alternating loop
follows spec section 4.2: step (a) computes the integer codes by
clamp-round, steps (b)-(c) form the residual in `W*scale + zero` space and
shrink it, step (d) re-estimates the zero point as a per-group mean with
the scale held fixed, step (e) grows beta by kappa, and step (f) stops when
the mean absolute error increases, returning the best-so-far codes and
zero. The L^p shrinkage operator is kept as a function parameter
`shrink beta e`: its closed form for the default p = 0.7 needs real
exponentiation and is not expressible as an executable map on ℚ, and no
claim depends on its values. Defaults: beta0 = 10, kappa = 1.05 = 21/20,
T_max = 20 iterations. -/

/-- One zero-point update (spec section 4.2 step d):
`zero <- mean(W_q - W*scale + shrink(e, beta))` over each group. -/
def zeroUpdate (shrinkB : ℚ → ℚ) (W : List ℚ) (gof : ℕ → ℕ) (nG : ℕ)
    (s z : List ℚ) (maxv : ℕ) : List ℚ :=
  let Wq := qRoundList W gof s z maxv
  (List.range nG).map (fun j =>
    let idxs := groupIdx W.length gof j
    (idxs.map (fun i =>
        ((Wq.getD i 0 : ℚ) - W.getD i 0 * s.getD j 0)
          + shrinkB (W.getD i 0 * s.getD j 0 + z.getD j 0 - (Wq.getD i 0 : ℚ)))).sum
      / idxs.length)

/-- Mean absolute difference between the raw and the shrunk residual
(spec section 4.2 step f). -/
def meanAbsErr (shrinkB : ℚ → ℚ) (W : List ℚ) (gof : ℕ → ℕ)
    (s z : List ℚ) (maxv : ℕ) : ℚ :=
  let Wq := qRoundList W gof s z maxv
  let es := (List.range W.length).map (fun i =>
    let e := W.getD i 0 * s.getD (gof i) 0 + z.getD (gof i) 0 - (Wq.getD i 0 : ℚ)
    |e - shrinkB e|)
  es.sum / W.length

/-- The iteration loop of the modelled optimizer: `fuel` remaining
iterations, current `beta`, previous error, current zero and best-so-far
(codes, zero). -/
def optGo (shrink : ℚ → ℚ → ℚ) (W : List ℚ) (gof : ℕ → ℕ) (nG : ℕ)
    (s : List ℚ) (maxv : ℕ) :
    ℕ → ℚ → ℚ → List ℚ → List ℕ × List ℚ → List ℕ × List ℚ
  | 0, _, _, _, best => best
  | Nat.succ fuel, beta, prevErr, z, best =>
      let err := meanAbsErr (shrink beta) W gof s z maxv
      if prevErr < err then best
      else
        let z2 := zeroUpdate (shrink beta) W gof nG s z maxv
        optGo shrink W gof nG s maxv fuel (beta * (21 / 20)) err z2
          (qRoundList W gof s z maxv, z2)

/-- Modelled from the spec: `optimize_weights_proximal` (spec section
4.2). Returns the refined integer codes and zero point; the scale is held
fixed. -/
def optimizeWeights (shrink : ℚ → ℚ → ℚ) (W : List ℚ) (gof : ℕ → ℕ)
    (nG : ℕ) (s z : List ℚ) (maxv : ℕ) : List ℕ × List ℚ :=
  optGo shrink W gof nG s maxv 20 10 (meanAbsErr (shrink 10) W gof s z maxv)
    z (qRoundList W gof s z maxv, z)

/-! ## Quantizer orchestration -/

/-- A quantized-weight tensor: integer payload (codes or packed
containers) with a dtype tag. A torch `view(dtype)` reinterprets the bytes
in place; it is modelled as a change of the tag with the payload kept. -/
structure QTensor where
  data : List ℕ
  dtype : DType
deriving DecidableEq, Repr

/-- A reconstructed (dequantized) tensor: rational payload, dtype tag and
2-D shape. -/
structure RTensor where
  data : List ℚ
  dtype : DType
  shape : ℕ × ℕ
deriving DecidableEq, Repr

/-- The meta dictionary emitted by `Quantizer.quantize` (quantize.py lines
154-166). `scale` holds the stored (already inverted) scale, one entry per
group; `compute_dtype` is absent from the dictionary built by `quantize`
(the host inserts it later), hence an `Option` that `quantize` leaves at
`none`. -/
structure Meta where
  nbits : NBits
  groupSize : Option ℕ
  shape : ℕ × ℕ
  scale : List ℚ
  zero : List ℚ
  axis : ℕ
  packing : Option Packing
  unpackViewDtype : DType
  viewAsFloat : Bool
  computeDtype : Option DType
deriving DecidableEq, Repr

/-- The arguments of `Quantizer.quantize` that select a configuration
(quantize.py lines 74-87), minus the tensor itself. -/
structure QuantCfg where
  nbits : NBits
  channelWise : Bool
  groupSize : Option ℕ
  optimize : Bool
  roundZero : Bool
  axis : ℕ
  bitpack : Bool
  computeDtype : Option DType
  viewAsFloat : Bool
deriving DecidableEq, Repr

/-- The group of flat index `i` in `quantize` for a `rows x cols` input
under configuration `cfg`: composes the reshape decision (quantize.py
lines 104-110) with the reduction axis (lines 113-118). -/
def quantGof (rows cols : ℕ) (cfg : QuantCfg) (i : ℕ) : ℕ :=
  gIndex cfg.channelWise cfg.axis
    (groupedDims rows cols cfg.channelWise cfg.groupSize cfg.axis).2 i

/-- Number of (scale, zero) groups of `quantize` for a `rows x cols`
input. -/
def quantNumGroups (rows cols : ℕ) (cfg : QuantCfg) : ℕ :=
  numGroups cfg.channelWise cfg.axis
    (groupedDims rows cols cfg.channelWise cfg.groupSize cfg.axis)

/-- The initial inverse-scale list of `quantize` (quantize.py lines
125-128), one entry per group. -/
def quantScale0 (W : List ℚ) (rows cols : ℕ) (cfg : QuantCfg) : List ℚ :=
  (List.range (quantNumGroups rows cols cfg)).map (fun j =>
    (initSZ W (quantGof rows cols cfg) (cfg.nbits.maxV : ℚ) cfg.roundZero j).1)

/-- The initial zero-point list of `quantize` (quantize.py lines 129-133,
including `round_zero`), one entry per group. -/
def quantZero0 (W : List ℚ) (rows cols : ℕ) (cfg : QuantCfg) : List ℚ :=
  (List.range (quantNumGroups rows cols cfg)).map (fun j =>
    (initSZ W (quantGof rows cols cfg) (cfg.nbits.maxV : ℚ) cfg.roundZero j).2)

/-- The internal integer code tensor `W_q` of `quantize`, before any
bit packing (quantize.py lines 136-146): the optimizer result when
`optimize` is set (and `channel_wise` did not force it off, line 115),
the direct clamp-round otherwise. Also returns the final zero list. -/
def quantCodesZero (shrink : ℚ → ℚ → ℚ) (W : List ℚ) (rows cols : ℕ)
    (cfg : QuantCfg) : List ℕ × List ℚ :=
  let gof := quantGof rows cols cfg
  let s := quantScale0 W rows cols cfg
  let z := quantZero0 W rows cols cfg
  if cfg.optimize && cfg.channelWise then
    optimizeWeights shrink W gof (quantNumGroups rows cols cfg) s z
      cfg.nbits.maxV
  else
    (qRoundList W gof s z cfg.nbits.maxV, z)

/-- The internal integer code tensor of `quantize` (the first component of
`quantCodesZero`). -/
def quantCodes (shrink : ℚ → ℚ → ℚ) (W : List ℚ) (rows cols : ℕ)
    (cfg : QuantCfg) : List ℕ :=
  (quantCodesZero shrink W rows cols cfg).1

/-- `Quantizer.quantize` (quantize.py lines 74-179) on a `rows x cols`
row-major input `W` of element type `inputDtype`: computes the grouped
initial codebook, the integer codes (via the modelled optimizer when
`optimize`), inverts the scale for storage, packs the codes when
`bitpack` (viewing the container as a float type when `view_as_float`,
line 169-172: `torch.float32 if compute_dtype is None else
compute_dtype`), or casts the raw codes to the input dtype and clears
`packing` otherwise (lines 173-175). -/
def quantizeModel (shrink : ℚ → ℚ → ℚ) (W : List ℚ) (rows cols : ℕ)
    (inputDtype : DType) (cfg : QuantCfg) : QTensor × Meta :=
  let dims := groupedDims rows cols cfg.channelWise cfg.groupSize cfg.axis
  let cz := quantCodesZero shrink W rows cols cfg
  let storedScale := (quantScale0 W rows cols cfg).map (fun x => 1 / x)
  let packing := bitToPacking cfg.nbits
  let wq : QTensor :=
    if cfg.bitpack then
      let packed := packCodes packing dims.1 dims.2 cz.1
      if cfg.viewAsFloat then
        ⟨packed, cfg.computeDtype.getD DType.float32⟩
      else
        ⟨packed, packing.unpackViewDtype⟩
    else
      ⟨cz.1, inputDtype⟩
  let meta : Meta :=
    { nbits := cfg.nbits
      groupSize := cfg.groupSize
      shape := (rows, cols)
      scale := storedScale
      zero := cz.2
      axis := cfg.axis
      packing := if cfg.bitpack then some packing else none
      unpackViewDtype := packing.unpackViewDtype
      viewAsFloat := cfg.viewAsFloat
      computeDtype := none }
  (wq, meta)

/-! ## Dequantization -/

/-- Rows kept by the 3-bit trim (quantize.py lines 190-194):
`meta["group_size"]` when axis = 0, else
`meta["shape"][0] * meta["shape"][1] // meta["group_size"]`. -/
def trimRows (meta : Meta) : ℕ :=
  if meta.axis = 0 then meta.groupSize.getD 0
  else meta.shape.1 * meta.shape.2 / meta.groupSize.getD 0

/-- Columns of the unpacked grouped view, reconstructed from the meta:
the row slice `W_r[:k]` of the source keeps `k * trimCols` flat elements
of the row-major buffer. -/
def trimCols (meta : Meta) : ℕ :=
  if meta.axis = 0 then meta.shape.1 * meta.shape.2 / meta.groupSize.getD 0
  else meta.groupSize.getD 0

/-- The tensor handed to the unpack codec: when `view_as_float` the
container is first re-viewed as `meta["unpack_view_dtype"]`
(quantize.py lines 186-187). -/
def dequantViewInput (Wq : QTensor) (meta : Meta) : QTensor :=
  if meta.viewAsFloat then ⟨Wq.data, meta.unpackViewDtype⟩ else Wq

/-- The code values that enter the affine reconstruction of
`Quantizer.dequantize` (quantize.py lines 185-196): unpack when a packing
is set, trimming the trailing 3-bit padding rows (lines 189-194; the slice
`W_r[:k]` keeps the first `k` rows, i.e. `k * trimCols` flat codes; with
`group_size = None` and axis = 0 the Python slice bound is `None`, which
keeps everything, so the trim is modelled only when a group size is
present); without a packing the stored tensor already holds the raw
codes. -/
def dequantCodes (Wq : QTensor) (meta : Meta) : List ℕ :=
  match meta.packing with
  | some p =>
      let W1 := dequantViewInput Wq meta
      let Wr := unpackCodes p W1.data
      if meta.nbits = NBits.b3 then
        match meta.groupSize with
        | some _ => Wr.take (trimRows meta * trimCols meta)
        | none => Wr
      else Wr
  | none => Wq.data

/-- The group of flat index `i` during dequantization, reconstructed from
the broadcast shapes of `meta["zero"]` and `meta["scale"]` against the
unpacked grouped view (a `[1, C]` or `[R, 1]` tensor broadcast over
`[R, C]`; a single-entry zero/scale is a scalar broadcast). -/
def metaGof (meta : Meta) (i : ℕ) : ℕ :=
  let cols :=
    match meta.groupSize with
    | some g =>
        if meta.axis = 1 then g else meta.shape.1 * meta.shape.2 / g
    | none => meta.shape.2
  if meta.zero.length ≤ 1 then 0
  else if meta.axis = 1 then i / cols else i % cols

/-- `Quantizer.dequantize` (quantize.py lines 182-198):
`compute_dtype` defaults to float16 when the meta carries none (line 184),
the codes are recovered by `dequantCodes`, and the reconstruction is
`(W_q - zero) * scale` reshaped to `meta["shape"]`. -/
def dequantizeModel (Wq : QTensor) (meta : Meta) : RTensor :=
  let cd := meta.computeDtype.getD DType.float16
  let codes := dequantCodes Wq meta
  { data := (List.range codes.length).map (fun i =>
      ((codes.getD i 0 : ℚ) - meta.zero.getD (metaGof meta i) 0)
        * meta.scale.getD (metaGof meta i) 0)
    dtype := cd
    shape := meta.shape }

/-! ## Host linear-layer wrapper (HQQLinear)

The deprecated-surface handling of the host wrapper: `initialize`
(quantize.py lines 430-438) discards non-null `scale_quant_params` /
`zero_quant_params` behind the one-shot module flag
`PRINT_ZERO_SCALE_DEPRECATED`, while `__init__` (lines 409-413) pops
`offload_meta` into a field that `cuda` (lines 551-566) branches on. Only
the state that the claims observe is modelled: the two parameter slots,
the process-wide print flag, and the zero/scale entries of the meta
dictionary that `cuda` rewrites. -/

/-- The zero/scale-related entries of the meta dictionary of an
`HQQLinear` layer whose zero and scale are unquantized (the state reached
when the deprecated quant params were discarded). -/
structure HostMeta where
  zero : Option ℚ
  scale : Option ℚ
  zeroScale : Option (ℚ × ℚ)
deriving DecidableEq, Repr

/-- `HQQLinear.initialize` handling of the deprecated params (quantize.py
lines 433-438): when either is non-null, both are set to null, and a
warning is printed exactly when the process-wide flag is still up (the
flag then goes down). Returns the new (scale, zero) params, the new flag,
and whether a warning was printed. -/
def hostInitDeprecated (sqp zqp : Option ℕ) (flag : Bool) :
    (Option ℕ × Option ℕ) × Bool × Bool :=
  if sqp.isSome || zqp.isSome then ((none, none), false, flag)
  else ((sqp, zqp), flag, false)

/-- Warnings printed by a sequence of `initialize` calls starting from
print-flag state `flag` (the flag is module-level, shared across calls). -/
def hostWarnCount : List (Option ℕ × Option ℕ) → Bool → ℕ
  | [], _ => 0
  | c :: cs, flag =>
      let r := hostInitDeprecated c.1 c.2 flag
      (if r.2.2 then 1 else 0) + hostWarnCount cs r.2.1

/-- `HQQLinear.cuda` meta offloading (quantize.py lines 551-566, branch
with unquantized zero/scale): when `offload_meta` is set and no
`zero_scale` entry exists yet, zero and scale are stacked into
`meta["zero_scale"]` and their separate entries are deleted; with
`offload_meta` unset (or null) the meta is left as is. -/
def hostCudaOffload (offloadMeta : Bool) (m : HostMeta) : HostMeta :=
  if offloadMeta then
    match m.zeroScale with
    | some _ => m
    | none =>
        { zero := none, scale := none
          zeroScale := some (m.zero.getD 0, m.scale.getD 0) }
  else m

/-! ## Claims about tables, codebook formula and control flow -/

/-- C3: for every supported `nbits`, `quantize` selects the packing
identifier and container type as a deterministic function of `nbits`
(`bit_to_packing` and `unpack_view_dtype`, quantize.py lines 39-48 and
66-72): 3 maps to the 32-bit container `3bit_32` with unpack view dtype
int32; 8, 6 and 5 map to the identity uint8 packing `8bit_u8`; 4 to
`4bit_u8`; 2 and 1.58 to `2bit_u8`; 1 to `1bit_u8`; every u8 packing has
unpack view dtype uint8; and the meta emitted by `quantize` carries
exactly `bit_to_packing nbits` (as a string id) with its view dtype. -/
theorem claim3_packing_tables :
    (bitToPacking .b8 = .p8bit_u8 ∧ bitToPacking .b6 = .p8bit_u8 ∧
      bitToPacking .b5 = .p8bit_u8 ∧ bitToPacking .b4 = .p4bit_u8 ∧
      bitToPacking .b3 = .p3bit_32 ∧ bitToPacking .b2 = .p2bit_u8 ∧
      bitToPacking .b158 = .p2bit_u8 ∧ bitToPacking .b1 = .p1bit_u8) ∧
    (Packing.id .p8bit_u8 = "8bit_u8" ∧ Packing.id .p4bit_u8 = "4bit_u8" ∧
      Packing.id .p3bit_32 = "3bit_32" ∧ Packing.id .p2bit_u8 = "2bit_u8" ∧
      Packing.id .p1bit_u8 = "1bit_u8") ∧
    (Packing.unpackViewDtype .p3bit_32 = .int32 ∧
      DType.bitWidth (Packing.unpackViewDtype .p3bit_32) = 32 ∧
      Packing.unpackViewDtype .p8bit_u8 = .uint8 ∧
      Packing.unpackViewDtype .p4bit_u8 = .uint8 ∧
      Packing.unpackViewDtype .p2bit_u8 = .uint8 ∧
      Packing.unpackViewDtype .p1bit_u8 = .uint8) ∧
    (∀ (shrink : ℚ → ℚ → ℚ) (W : List ℚ) (rows cols : ℕ) (dt : DType)
        (cfg : QuantCfg),
      ((quantizeModel shrink W rows cols dt cfg).2.packing =
          if cfg.bitpack then some (bitToPacking cfg.nbits) else none) ∧
      (quantizeModel shrink W rows cols dt cfg).2.unpackViewDtype =
        (bitToPacking cfg.nbits).unpackViewDtype) := by
  refine ⟨?_, ?_, ?_, ?_⟩
  · exact ⟨rfl, rfl, rfl, rfl, rfl, rfl, rfl, rfl⟩
  · exact ⟨rfl, rfl, rfl, rfl, rfl⟩
  · exact ⟨rfl, rfl, rfl, rfl, rfl, rfl⟩
  · intro shrink W rows cols dt cfg
    exact ⟨rfl, rfl⟩

/-- `2^1.58 < 3` over the reals, via `2^79 < 3^50`. Separates the
supported width 1.58 from its literal power: `round(2^1.58 - 1) = 2`
while `2^1.58 - 1 < 2`. -/
lemma two_rpow_158_lt_three : (2 : ℝ) ^ ((79 : ℝ) / 50) < 3 := by
  have hpow : ((2 : ℝ) ^ ((79 : ℝ) / 50)) ^ (50 : ℕ) = 2 ^ (79 : ℕ) := by
    rw [← Real.rpow_natCast ((2 : ℝ) ^ ((79 : ℝ) / 50)) 50,
      ← Real.rpow_mul (by norm_num)]
    norm_num
  have h3 : (0 : ℝ) ≤ 3 := by norm_num
  refine lt_of_pow_lt_pow_left₀ 50 h3 ?_
  rw [hpow]
  norm_num

/-- C4 (amended): the inverse scale of a group is
`round(2^nbits - 1) / (max - min)` — the numerator computed by line 120,
equal to `2^nbits - 1` for the seven integer widths and to 2 for
nbits = 1.58 — replaced by `1.0` where `|max - min| <= 1e-4`, then clamped
to at most `2e4`, with `zero = -min * scale` (quantize.py lines 125-129);
`quantize` builds its per-group scale and zero lists from exactly this
formula at the selected width; a zero-range group gets scale 1 and zero
`-min`, with no error (the computation is total); the clamp is live: a
group with range `2e-4` at 4 bits gets its scale clamped from 75000 down
to 20000. -/
theorem claim4_amended_scale_zero :
    (∀ (nb : NBits) (mn mx : ℚ),
      szPair ((nb.maxV : ℕ) : ℚ) mn mx =
        (min (if |mx - mn| ≤ 1 / 10000 then 1
              else ((nb.maxV : ℕ) : ℚ) / (mx - mn)) 20000,
          -mn *
            min (if |mx - mn| ≤ 1 / 10000 then 1
                else ((nb.maxV : ℕ) : ℚ) / (mx - mn)) 20000)) ∧
    (NBits.maxV .b8 = 2 ^ 8 - 1 ∧ NBits.maxV .b6 = 2 ^ 6 - 1 ∧
      NBits.maxV .b5 = 2 ^ 5 - 1 ∧ NBits.maxV .b4 = 2 ^ 4 - 1 ∧
      NBits.maxV .b3 = 2 ^ 3 - 1 ∧ NBits.maxV .b2 = 2 ^ 2 - 1 ∧
      NBits.maxV .b1 = 2 ^ 1 - 1 ∧ NBits.maxV .b158 = 2) ∧
    (∀ (W : List ℚ) (rows cols : ℕ) (cfg : QuantCfg),
      quantScale0 W rows cols cfg =
        (List.range (quantNumGroups rows cols cfg)).map (fun j =>
          (szPair ((cfg.nbits.maxV : ℕ) : ℚ)
            (groupMin W (quantGof rows cols cfg) j)
            (groupMax W (quantGof rows cols cfg) j)).1)) ∧
    (∀ (W : List ℚ) (rows cols : ℕ) (cfg : QuantCfg),
      quantZero0 W rows cols { cfg with roundZero := false } =
        (List.range
            (quantNumGroups rows cols { cfg with roundZero := false })).map
          (fun j =>
            (szPair ((cfg.nbits.maxV : ℕ) : ℚ)
              (groupMin W
                (quantGof rows cols { cfg with roundZero := false }) j)
              (groupMax W
                (quantGof rows cols { cfg with roundZero := false }) j)).2)) ∧
    (∀ (nb : NBits) (mn : ℚ), szPair ((nb.maxV : ℕ) : ℚ) mn mn = (1, -mn)) ∧
    szPair ((NBits.b4.maxV : ℕ) : ℚ) (-(1 / 10000)) (1 / 10000) =
      (20000, 2) := by
  refine ⟨fun nb mn mx => rfl,
    ⟨rfl, rfl, rfl, rfl, rfl, rfl, rfl, rfl⟩,
    fun W rows cols cfg => rfl, fun W rows cols cfg => rfl,
    fun nb mn => ?_, ?_⟩
  · norm_num [szPair, min_def]
  · have h : |(1 : ℚ) / 5000| = 1 / 5000 := by norm_num
    norm_num [szPair, min_def, h, NBits.maxV]

/-- C4 counterexample: the claimed numerator `2^nbits - 1` fails at
nbits = 1.58: on the single group of `[0, 1]` (min 0, max 1, denominator
1), `quantize` computes the inverse scale 2 = `round(2^1.58 - 1) / 1`,
which is not `(2^1.58 - 1) / (1 - 0)` since `2^1.58 < 3`. -/
theorem claim4_counterexample :
    (quantScale0 [0, 1] 1 2
        { nbits := .b158, channelWise := true, groupSize := some 2,
          optimize := false, roundZero := false, axis := 1, bitpack := true,
          computeDtype := none, viewAsFloat := false }).getD 0 0 = 2 ∧
    ¬ ((((quantScale0 [0, 1] 1 2
          { nbits := .b158, channelWise := true, groupSize := some 2,
            optimize := false, roundZero := false, axis := 1,
            bitpack := true, computeDtype := none,
            viewAsFloat := false }).getD 0 0 : ℚ) : ℝ) =
        ((2 : ℝ) ^ ((NBits.b158.val : ℚ) : ℝ) - 1) / (1 - 0)) := by
  have hval : (quantScale0 [0, 1] 1 2
      { nbits := .b158, channelWise := true, groupSize := some 2,
        optimize := false, roundZero := false, axis := 1, bitpack := true,
        computeDtype := none, viewAsFloat := false }).getD 0 0 = 2 := by
    norm_num [quantScale0, quantNumGroups, numGroups, groupedDims, gIndex,
      initSZ, szPair, groupMin, groupMax, groupIdx, listMin, listMax,
      quantGof, List.range_succ, NBits.maxV, min_def]
  refine ⟨hval, ?_⟩
  rw [hval]
  have hv : ((NBits.b158.val : ℚ) : ℝ) = (79 : ℝ) / 50 := by
    norm_num [NBits.val]
  rw [hv]
  intro heq
  have hlt := two_rpow_158_lt_three
  norm_num at heq
  nlinarith [hlt, heq]

/-- C8 (amended): when a `group_size` is provided AND `channel_wise` is
true, `quantize` reshapes `W` to `[group_size, -1]` for axis 0 and to
`[-1, group_size]` for axis 1 before the per-group min/max (quantize.py
lines 104-110); when `channel_wise` is false, or no group size is given,
no reshape occurs. -/
theorem claim8_amended_reshape :
    (∀ rows cols g axis, groupedDims rows cols true (some g) axis =
      if axis = 1 then ((rows * cols) / g, g) else (g, (rows * cols) / g)) ∧
    (∀ rows cols gs axis, groupedDims rows cols false gs axis = (rows, cols)) ∧
    (∀ rows cols cw axis, groupedDims rows cols cw none axis = (rows, cols)) := by
  refine ⟨fun rows cols g axis => rfl, fun rows cols gs axis => ?_,
    fun rows cols cw axis => ?_⟩
  · cases gs <;> rfl
  · cases cw <;> rfl

/-- C8 counterexample: with a group size provided but `channel_wise`
false, `quantize` does NOT reshape to `[group_size, -1]`: a 4 x 2 input
with group size 2 and axis 0 keeps its shape (4, 2) instead of becoming
(2, 4). -/
theorem claim8_counterexample :
    groupedDims 4 2 false (some 2) 0 ≠ (2, 4 * 2 / 2) := by
  decide

/-- C9: when the meta passed to `dequantize` has no `compute_dtype` entry,
the compute type defaults to float16 (quantize.py line 184): the result of
`dequantize` is exactly the result under an explicit float16 compute
dtype, and its element type is float16. -/
theorem claim9_default_compute_dtype :
    ∀ (Wq : QTensor) (meta : Meta),
      dequantizeModel Wq { meta with computeDtype := none } =
        dequantizeModel Wq { meta with computeDtype := some DType.float16 } ∧
      (dequantizeModel Wq { meta with computeDtype := none }).dtype =
        DType.float16 := by
  intro Wq meta
  exact ⟨rfl, rfl⟩

/-- C10: with `bitpack = false`, `quantize` returns the raw integer codes
cast to the input element type and sets `meta["packing"]` to null
(quantize.py lines 173-175); on such a meta `dequantize` skips unpacking
entirely and uses the stored tensor directly (lines 195-196), so the
reconstruction is the affine map applied to the raw codes. -/
theorem claim10_bitpack_false :
    ∀ (shrink : ℚ → ℚ → ℚ) (W : List ℚ) (rows cols : ℕ) (dt : DType)
      (cfg : QuantCfg),
      ((quantizeModel shrink W rows cols dt { cfg with bitpack := false }).2.packing
        = none) ∧
      ((quantizeModel shrink W rows cols dt { cfg with bitpack := false }).1.data
        = quantCodes shrink W rows cols { cfg with bitpack := false }) ∧
      ((quantizeModel shrink W rows cols dt { cfg with bitpack := false }).1.dtype
        = dt) ∧
      dequantCodes
          (quantizeModel shrink W rows cols dt { cfg with bitpack := false }).1
          (quantizeModel shrink W rows cols dt { cfg with bitpack := false }).2
        = (quantizeModel shrink W rows cols dt { cfg with bitpack := false }).1.data := by
  intro shrink W rows cols dt cfg
  exact ⟨rfl, rfl, rfl, rfl⟩

/-- C5 (amended): non-null `scale_quant_params` and `zero_quant_params`
are accepted, trigger at most one process-lifetime warning, and are then
discarded (quantize.py lines 433-438); `offload_meta`, however, is
accepted without any warning and retained: when set, `cuda` packs zero and
scale into `meta["zero_scale"]` and deletes the separate entries
(lines 551-566), so the wrapper does not behave as if it were null. -/
theorem claim5_amended_deprecated_surface :
    (∀ (sqp zqp : Option ℕ) (flag : Bool),
      (hostInitDeprecated sqp zqp flag).1 = (none, none) ∨
        (sqp = none ∧ zqp = none)) ∧
    (∀ (calls : List (Option ℕ × Option ℕ)) (flag : Bool),
      hostWarnCount calls flag ≤ if flag then 1 else 0) ∧
    (∀ z s : ℚ,
      hostCudaOffload true ⟨some z, some s, none⟩ =
        ⟨none, none, some (z, s)⟩) ∧
    (∀ m : HostMeta, hostCudaOffload false m = m) := by
  refine ⟨?_, ?_, fun z s => rfl, fun m => rfl⟩
  · intro sqp zqp flag
    cases sqp with
    | none =>
        cases zqp with
        | none => exact Or.inr ⟨rfl, rfl⟩
        | some v => exact Or.inl (by simp [hostInitDeprecated])
    | some v => exact Or.inl (by simp [hostInitDeprecated])
  · intro calls
    induction calls with
    | nil => intro flag; simp [hostWarnCount]
    | cons c cs ih =>
      intro flag
      by_cases h : c.1.isSome || c.2.isSome
      · have := ih false
        cases flag <;>
          simpa [hostWarnCount, hostInitDeprecated, h] using ih false
      · simpa [hostWarnCount, hostInitDeprecated, h] using ih flag

/-- C5 counterexample: a true `offload_meta` is not discarded by the
wrapper: `cuda` rewrites the meta (zero and scale move into
`zero_scale`), so the layer does not proceed as if `offload_meta` were
null. -/
theorem claim5_counterexample :
    hostCudaOffload true ⟨some 1, some (1 / 2), none⟩ ≠
      hostCudaOffload false ⟨some 1, some (1 / 2), none⟩ := by
  simp [hostCudaOffload]

/-- C6 (amended): with `bitpack = true` and `view_as_float = true`, the
returned tensor is the packed container reinterpreted as `compute_dtype`
(float32 when `compute_dtype` is null) — a type whose bit width need not
match the container type — with the payload unchanged; `dequantize` undoes
the view by reinterpreting the tensor as `meta["unpack_view_dtype"]`
before unpacking (quantize.py lines 169-172 and 186-187), and the
reconstruction is identical to the one without the float view. -/
theorem claim6_amended_view_as_float :
    ∀ (shrink : ℚ → ℚ → ℚ) (W : List ℚ) (rows cols : ℕ) (dt : DType)
      (cfg : QuantCfg),
      ((quantizeModel shrink W rows cols dt
          { cfg with bitpack := true, viewAsFloat := true }).1.dtype =
        cfg.computeDtype.getD DType.float32) ∧
      ((quantizeModel shrink W rows cols dt
            { cfg with bitpack := true, viewAsFloat := true }).1.data =
        (quantizeModel shrink W rows cols dt
            { cfg with bitpack := true, viewAsFloat := false }).1.data) ∧
      ((dequantViewInput
            (quantizeModel shrink W rows cols dt
              { cfg with bitpack := true, viewAsFloat := true }).1
            (quantizeModel shrink W rows cols dt
              { cfg with bitpack := true, viewAsFloat := true }).2).dtype =
        (quantizeModel shrink W rows cols dt
            { cfg with bitpack := true, viewAsFloat := true }).2.unpackViewDtype) ∧
      ((dequantViewInput
            (quantizeModel shrink W rows cols dt
              { cfg with bitpack := true, viewAsFloat := true }).1
            (quantizeModel shrink W rows cols dt
              { cfg with bitpack := true, viewAsFloat := true }).2).data =
        (quantizeModel shrink W rows cols dt
            { cfg with bitpack := true, viewAsFloat := true }).1.data) ∧
      (dequantizeModel
          (quantizeModel shrink W rows cols dt
            { cfg with bitpack := true, viewAsFloat := true }).1
          (quantizeModel shrink W rows cols dt
            { cfg with bitpack := true, viewAsFloat := true }).2 =
        dequantizeModel
          (quantizeModel shrink W rows cols dt
            { cfg with bitpack := true, viewAsFloat := false }).1
          (quantizeModel shrink W rows cols dt
            { cfg with bitpack := true, viewAsFloat := false }).2) := by
  intro shrink W rows cols dt cfg
  exact ⟨rfl, rfl, rfl, rfl, rfl⟩

/-- C6 counterexample: the float type chosen for the view is NOT of the
container bit width: quantizing `[0, 1]` at 4 bits (uint8 container, 8
bits) with a null `compute_dtype` stores the container viewed as float32
(32 bits). -/
theorem claim6_counterexample :
    ((quantizeModel (fun _ e => e) [0, 1] 1 2 DType.float32
        { nbits := .b4, channelWise := true, groupSize := some 2,
          optimize := false, roundZero := false, axis := 1, bitpack := true,
          computeDtype := none, viewAsFloat := true }).1.dtype =
      DType.float32) ∧
    ((quantizeModel (fun _ e => e) [0, 1] 1 2 DType.float32
        { nbits := .b4, channelWise := true, groupSize := some 2,
          optimize := false, roundZero := false, axis := 1, bitpack := true,
          computeDtype := none, viewAsFloat := true }).2.unpackViewDtype =
      DType.uint8) ∧
    DType.bitWidth DType.float32 ≠ DType.bitWidth DType.uint8 := by
  exact ⟨rfl, rfl, by decide⟩

/-! ## Code range invariant -/

/-- A clamp-rounded code never exceeds the clamp ceiling. -/
lemma qcode_le (x : ℚ) (maxv : ℕ) : qcode x maxv ≤ maxv := by
  unfold qcode
  have h1 : max 0 (min (roundHalfEven x) (maxv : ℤ)) ≤ (maxv : ℤ) :=
    max_le (Int.ofNat_nonneg maxv) (min_le_right _ _)
  omega

/-- Every element of a clamp-round pass is at most the clamp ceiling. -/
lemma qRoundList_le (W : List ℚ) (gof : ℕ → ℕ) (s z : List ℚ) (maxv : ℕ) :
    ∀ c ∈ qRoundList W gof s z maxv, c ≤ maxv := by
  intro c hc
  rcases List.mem_map.mp hc with ⟨i, _, rfl⟩
  exact qcode_le _ _

/-- The optimizer loop only ever returns codes produced by a clamp-round
pass (or the incoming best-so-far). -/
lemma optGo_le (shrink : ℚ → ℚ → ℚ) (W : List ℚ) (gof : ℕ → ℕ) (nG : ℕ)
    (s : List ℚ) (maxv : ℕ) :
    ∀ (fuel : ℕ) (beta prevErr : ℚ) (z : List ℚ) (best : List ℕ × List ℚ),
      (∀ c ∈ best.1, c ≤ maxv) →
      ∀ c ∈ (optGo shrink W gof nG s maxv fuel beta prevErr z best).1,
        c ≤ maxv := by
  intro fuel
  induction fuel with
  | zero => intro beta prevErr z best hbest; simpa [optGo] using hbest
  | succ n ih =>
      intro beta prevErr z best hbest c hc
      rw [optGo] at hc
      by_cases h : prevErr < meanAbsErr (shrink beta) W gof s z maxv
      · rw [if_pos h] at hc
        exact hbest c hc
      · rw [if_neg h] at hc
        exact ih _ _ _ _ (qRoundList_le W gof s z maxv) c hc

/-- The internal code tensor of `quantize` is bounded by `max_v` on both
the direct and the optimized path. -/
lemma quantCodes_le (shrink : ℚ → ℚ → ℚ) (W : List ℚ) (rows cols : ℕ)
    (cfg : QuantCfg) :
    ∀ c ∈ quantCodes shrink W rows cols cfg, c ≤ cfg.nbits.maxV := by
  intro c hc
  unfold quantCodes quantCodesZero at hc
  by_cases h : cfg.optimize && cfg.channelWise
  · rw [if_pos h] at hc
    exact optGo_le _ _ _ _ _ _ _ _ _ _ _
      (qRoundList_le _ _ _ _ _) c hc
  · rw [if_neg h] at hc
    exact qRoundList_le _ _ _ _ _ c hc

/-- C7 (amended): for every input and every configuration (either
optimizer path), every element of the internal integer code tensor lies in
`[0, max_v]` where `max_v = round(2^nbits - 1)` (quantize.py lines
120-122 and 145-146); for the seven integer widths `max_v` equals
`2^nbits - 1` literally, while for nbits = 1.58 it is 2. -/
theorem claim7_amended_code_range :
    (∀ (shrink : ℚ → ℚ → ℚ) (W : List ℚ) (rows cols : ℕ) (cfg : QuantCfg),
      ∀ c ∈ quantCodes shrink W rows cols cfg,
        (0 : ℤ) ≤ (c : ℤ) ∧ (c : ℤ) ≤ (cfg.nbits.maxV : ℤ)) ∧
    (NBits.maxV .b8 = 2 ^ 8 - 1 ∧ NBits.maxV .b6 = 2 ^ 6 - 1 ∧
      NBits.maxV .b5 = 2 ^ 5 - 1 ∧ NBits.maxV .b4 = 2 ^ 4 - 1 ∧
      NBits.maxV .b3 = 2 ^ 3 - 1 ∧ NBits.maxV .b2 = 2 ^ 2 - 1 ∧
      NBits.maxV .b1 = 2 ^ 1 - 1 ∧ NBits.maxV .b158 = 2) := by
  constructor
  · intro shrink W rows cols cfg c hc
    exact ⟨Int.ofNat_nonneg c,
      Int.ofNat_le.mpr (quantCodes_le shrink W rows cols cfg c hc)⟩
  · exact ⟨rfl, rfl, rfl, rfl, rfl, rfl, rfl, rfl⟩

/-- C7 witness: the range theorem applied to the ternary code 2 produced
by quantizing `[0, 1, 2]` at nbits = 1.58. -/
theorem claim7_amended_code_range_witness :
    2 ∈ quantCodes (fun _ e => e) [0, 1, 2] 1 3
        { nbits := .b158, channelWise := true, groupSize := some 3,
          optimize := false, roundZero := false, axis := 1, bitpack := true,
          computeDtype := none, viewAsFloat := false } ∧
    ((0 : ℤ) ≤ (2 : ℤ) ∧ (2 : ℤ) ≤ ((NBits.b158.maxV : ℕ) : ℤ)) := by
  have hmem : 2 ∈ quantCodes (fun _ e => e) [0, 1, 2] 1 3
      { nbits := .b158, channelWise := true, groupSize := some 3,
        optimize := false, roundZero := false, axis := 1, bitpack := true,
        computeDtype := none, viewAsFloat := false } := by
    have : quantCodes (fun _ e => e) [0, 1, 2] 1 3
        { nbits := .b158, channelWise := true, groupSize := some 3,
          optimize := false, roundZero := false, axis := 1, bitpack := true,
          computeDtype := none, viewAsFloat := false } = [0, 1, 2] := by
      norm_num [quantCodes, quantCodesZero, quantScale0, quantZero0, quantGof,
        quantNumGroups, groupedDims, gIndex, numGroups, initSZ, szPair,
        groupMin, groupMax, groupIdx, listMin, listMax, qRoundList, qcode,
        roundHalfEven, List.range_succ, NBits.maxV, Int.toNat]
    rw [this]
    simp
  exact ⟨hmem, claim7_amended_code_range.1 (fun _ e => e) [0, 1, 2] 1 3 _ 2 hmem⟩

/-- C7 counterexample: the claimed interval `[0, 2^nbits - 1]` fails for
nbits = 1.58: quantizing `[0, 1, 2]` produces the code 2, but
`2 > 2^1.58 - 1` (since `2^79 < 3^50`). -/
theorem claim7_counterexample :
    2 ∈ quantCodes (fun _ e => e) [0, 1, 2] 1 3
        { nbits := .b158, channelWise := true, groupSize := some 3,
          optimize := false, roundZero := false, axis := 0, bitpack := true,
          computeDtype := none, viewAsFloat := false } ∧
    ¬ ((2 : ℝ) ≤ (2 : ℝ) ^ ((NBits.b158.val : ℚ) : ℝ) - 1) := by
  constructor
  · have : quantCodes (fun _ e => e) [0, 1, 2] 1 3
        { nbits := .b158, channelWise := true, groupSize := some 3,
          optimize := false, roundZero := false, axis := 0, bitpack := true,
          computeDtype := none, viewAsFloat := false } = [0, 1, 2] := by
      norm_num [quantCodes, quantCodesZero, quantScale0, quantZero0, quantGof,
        quantNumGroups, groupedDims, gIndex, numGroups, initSZ, szPair,
        groupMin, groupMax, groupIdx, listMin, listMax, qRoundList, qcode,
        roundHalfEven, List.range_succ, NBits.maxV, Int.toNat]
    rw [this]
    simp
  · have hval : ((NBits.b158.val : ℚ) : ℝ) = (79 : ℝ) / 50 := by
      norm_num [NBits.val]
    rw [hval]
    have hlt := two_rpow_158_lt_three
    intro hle
    nlinarith [hlt, hle]

/-! ## Round-trip of the stripe codecs -/

/-- Folding `a * B + d` from a nonzero accumulator splits into the
accumulator shifted past the digits plus the zero-accumulator fold. -/
lemma foldl_mul_add (B : ℕ) (t : List ℕ) :
    ∀ a : ℕ, t.foldl (fun x d => x * B + d) a =
      a * B ^ t.length + t.foldl (fun x d => x * B + d) 0 := by
  induction t with
  | nil => intro a; simp
  | cons d t ih =>
      intro a
      simp only [List.foldl_cons, List.length_cons, Nat.zero_mul,
        Nat.zero_add]
      rw [ih (a * B + d), ih d]
      ring

/-- A word of digits all below the base is below base to the digit
count. -/
lemma packWord_lt (b : ℕ) (ds : List ℕ) (h : ∀ d ∈ ds, d < 2 ^ b) :
    packWord b ds < (2 ^ b) ^ ds.length := by
  induction ds with
  | nil => simp [packWord]
  | cons d t ih =>
      have hd : d < 2 ^ b := h d (List.mem_cons_self d t)
      have ht : packWord b t < (2 ^ b) ^ t.length :=
        ih (fun x hx => h x (List.mem_cons_of_mem d hx))
      unfold packWord at *
      simp only [List.foldl_cons, List.length_cons, Nat.zero_mul,
        Nat.zero_add]
      rw [foldl_mul_add]
      calc d * (2 ^ b) ^ t.length + t.foldl (fun x y => x * 2 ^ b + y) 0
          < d * (2 ^ b) ^ t.length + (2 ^ b) ^ t.length := by omega
        _ = (d + 1) * (2 ^ b) ^ t.length := by ring
        _ ≤ 2 ^ b * (2 ^ b) ^ t.length := by
            exact Nat.mul_le_mul_right _ (by omega)
        _ = (2 ^ b) ^ (t.length + 1) := by ring

/-- Digit extraction: dividing a packed word by the base raised to the
digit position from the right and taking the remainder mod the base
recovers the digit. -/
lemma packWord_extract (b : ℕ) (ds : List ℕ) (h : ∀ d ∈ ds, d < 2 ^ b) :
    ∀ k, k < ds.length →
      packWord b ds / (2 ^ b) ^ (ds.length - 1 - k) % 2 ^ b = ds.getD k 0 := by
  induction ds with
  | nil => intro k hk; simp at hk
  | cons d t ih =>
      intro k hk
      have hd : d < 2 ^ b := h d (List.mem_cons_self d t)
      have hmem : ∀ x ∈ t, x < 2 ^ b :=
        fun x hx => h x (List.mem_cons_of_mem d hx)
      have hsplit : packWord b (d :: t) =
          packWord b t + d * (2 ^ b) ^ t.length := by
        unfold packWord
        simp only [List.foldl_cons, Nat.zero_mul, Nat.zero_add]
        rw [foldl_mul_add]
        ring
      have hlt : packWord b t < (2 ^ b) ^ t.length := packWord_lt b t hmem
      cases k with
      | zero =>
          have hexp : (d :: t).length - 1 - 0 = t.length := by
            simp
          rw [hexp, hsplit, Nat.add_mul_div_right _ _ (Nat.pos_pow_of_pos _ (by positivity)),
            Nat.div_eq_of_lt hlt, Nat.zero_add, Nat.mod_eq_of_lt hd]
          rfl
      | succ k =>
          have hk' : k < t.length := by
            simpa [Nat.succ_lt_succ_iff] using hk
          have hexp : (d :: t).length - 1 - (k + 1) = t.length - 1 - k := by
            simp only [List.length_cons]
            omega
          have hpow : (2 ^ b) ^ t.length =
              (2 ^ b) ^ (k + 1) * (2 ^ b) ^ (t.length - 1 - k) := by
            rw [← pow_add]
            congr 1
            omega
          have hstep : packWord b (d :: t) =
              packWord b t +
                d * (2 ^ b) ^ (k + 1) * (2 ^ b) ^ (t.length - 1 - k) := by
            rw [hsplit, hpow, Nat.mul_assoc]
          have hsplit2 : (2 ^ b) ^ (k + 1) = (2 ^ b) ^ k * 2 ^ b := by ring
          rw [hexp, hstep,
            Nat.add_mul_div_right _ _ (Nat.pos_pow_of_pos _ (by positivity)),
            hsplit2, ← Nat.mul_assoc, Nat.add_mul_mod_self_right,
            List.getD_cons_succ]
          exact ih hmem k hk'

/-- `getD` of a map over `List.range` below the bound is the function
value. -/
lemma getD_map_range {α : Type} (f : ℕ → α) (d : α) {n j : ℕ} (h : j < n) :
    ((List.range n).map f).getD j d = f j := by
  rw [List.getD_eq_getElem _ _ (by simpa using h)]
  simp

/-- Reading a list back out through `getD` over its index range is the
identity. -/
lemma map_getD_range {α : Type} (l : List α) (d : α) :
    (List.range l.length).map (fun j => l.getD j d) = l := by
  apply List.ext_getElem
  · simp
  · intro i h1 h2
    rw [List.getElem_map, List.getElem_range, List.getD_eq_getElem _ _ h2]

/-- Round trip of the generic stripe codec: unpacking the packed form of a
code list whose length divides into `r` stripes and whose values fit in
`b` bits recovers the list. -/
lemma unpackStripes_packStripes (b r : ℕ) (_hr : 0 < r) (C : List ℕ)
    (hdvd : r ∣ C.length) (hC : ∀ c ∈ C, c < 2 ^ b) :
    unpackStripes b r (packStripes b r C) = C := by
  have hlen : C.length = r * (C.length / r) := (Nat.mul_div_cancel' hdvd).symm
  set step := C.length / r with hstep
  have hplen : (packStripes b r C).length = step := by
    simp [packStripes]
  rcases Nat.eq_zero_or_pos step with h0 | hpos
  · have hC0 : C = [] := by
      have : C.length = 0 := by rw [hlen, h0, Nat.mul_zero]
      exact List.eq_nil_of_length_eq_zero this
    subst hC0
    simp [unpackStripes, packStripes]
  · apply List.ext_getElem
    · simp only [unpackStripes, List.length_map, List.length_range, hplen]
      omega
    · intro j h1 h2
      have hj : j < r * step := by
        simpa [unpackStripes, hplen] using h1
      have hmod : j % step < step := Nat.mod_lt _ hpos
      have hdivr : j / step < r := by
        rw [Nat.div_lt_iff_lt_mul hpos]
        omega
      -- the digit list of container word (j % step)
      have hgetP : (packStripes b r C).getD (j % step) 0 =
          packWord b ((List.range r).map
            (fun k => C.getD (k * step + j % step) 0)) := by
        unfold packStripes
        rw [← hstep]
        exact getD_map_range _ _ hmod
      have hdigits : ∀ d ∈ (List.range r).map
          (fun k => C.getD (k * step + j % step) 0), d < 2 ^ b := by
        intro d hd
        rcases List.mem_map.mp hd with ⟨k, hk, rfl⟩
        have hk' : k < r := List.mem_range.mp hk
        have hidx : k * step + j % step < C.length := by
          rw [hlen]
          have e1 : (k + 1) * step = k * step + step := by ring
          have e2 : (k + 1) * step ≤ r * step :=
            Nat.mul_le_mul_right step (Nat.succ_le_of_lt hk')
          omega
        rw [List.getD_eq_getElem _ _ hidx]
        exact hC _ (List.getElem_mem hidx)
      have hulen : ((List.range r).map
          (fun k => C.getD (k * step + j % step) 0)).length = r := by simp
      have hext := packWord_extract b _ hdigits (j / step) (by rw [hulen]; exact hdivr)
      have helem : (unpackStripes b r (packStripes b r C))[j] =
          (packStripes b r C).getD (j % (packStripes b r C).length) 0 /
            2 ^ (b * (r - 1 - j / (packStripes b r C).length)) % 2 ^ b := by
        unfold unpackStripes
        rw [List.getElem_map, List.getElem_range]
      rw [helem, hplen, hgetP, pow_mul, hulen] at *
      rw [hext]
      rw [getD_map_range _ _ hdivr]
      have hjsplit : j / step * step + j % step = j := by
        rw [Nat.mul_comm]
        exact Nat.div_add_mod j step
      rw [hjsplit, List.getD_eq_getElem _ _ h2]

/-- Round trip of the non-3-bit codecs (identity for `8bit_u8`, stripe
codecs otherwise), under the stripe divisibility of the source layout. -/
lemma unpackCodes_packCodes (p : Packing) (hp : p ≠ Packing.p3bit_32)
    (R Cc : ℕ) (C : List ℕ) (hdvd : p.ratio ∣ C.length)
    (hC : ∀ c ∈ C, c < 2 ^ p.bits) :
    unpackCodes p (packCodes p R Cc C) = C := by
  cases p with
  | p8bit_u8 => rfl
  | p4bit_u8 => exact unpackStripes_packStripes 4 2 (by norm_num) C hdvd hC
  | p3bit_32 => exact absurd rfl hp
  | p2bit_u8 => exact unpackStripes_packStripes 2 4 (by norm_num) C hdvd hC
  | p1bit_u8 => exact unpackStripes_packStripes 1 8 (by norm_num) C hdvd hC

/-- Round trip of the 3-bit codec: unpacking returns the zero-padded
buffer (rows padded to a multiple of 10). -/
lemma unpackCodes_packCodes3 (R Cc : ℕ) (C : List ℕ)
    (hlen : C.length = R * Cc) (hC : ∀ c ∈ C, c < 8) :
    unpackCodes Packing.p3bit_32 (packCodes Packing.p3bit_32 R Cc C) =
      C ++ List.replicate ((10 * ((R + 9) / 10) - R) * Cc) 0 := by
  have hR : R ≤ 10 * ((R + 9) / 10) := by omega
  have hdvd : (10 : ℕ) ∣ (C ++ List.replicate ((10 * ((R + 9) / 10) - R) * Cc) 0).length := by
    refine ⟨((R + 9) / 10) * Cc, ?_⟩
    simp only [List.length_append, List.length_replicate, hlen]
    have hsub : (10 * ((R + 9) / 10) - R) * Cc =
        10 * ((R + 9) / 10) * Cc - R * Cc := Nat.sub_mul _ _ _
    have h2 : R * Cc ≤ 10 * ((R + 9) / 10) * Cc :=
      Nat.mul_le_mul_right Cc hR
    rw [hsub, Nat.add_sub_cancel' h2]
    ring
  have hbound : ∀ c ∈ C ++ List.replicate ((10 * ((R + 9) / 10) - R) * Cc) 0,
      c < 8 := by
    intro c hc
    rcases List.mem_append.mp hc with h | h
    · exact hC c h
    · rw [List.eq_of_mem_replicate h]
      norm_num
  exact unpackStripes_packStripes 3 10 (by norm_num) _ hdvd hbound

/-! ## Helper facts for the reconstruction claim -/

/-- A min-fold is bounded by its accumulator. -/
lemma foldl_min_le_init (l : List ℚ) : ∀ a : ℚ, l.foldl min a ≤ a := by
  induction l with
  | nil => intro a; simp
  | cons x t ih =>
      intro a
      simp only [List.foldl_cons]
      exact le_trans (ih (min a x)) (min_le_left a x)

/-- A min-fold is bounded by every list member. -/
lemma foldl_min_le_mem (l : List ℚ) :
    ∀ (a x : ℚ), x ∈ l → l.foldl min a ≤ x := by
  induction l with
  | nil => intro a x hx; simp at hx
  | cons y t ih =>
      intro a x hx
      simp only [List.foldl_cons]
      rcases List.mem_cons.mp hx with rfl | hx
      · exact le_trans (foldl_min_le_init t (min a x)) (min_le_right a x)
      · exact ih (min a y) x hx

/-- The list minimum is below every member. -/
lemma listMin_le {l : List ℚ} {x : ℚ} (hx : x ∈ l) : listMin l ≤ x := by
  cases l with
  | nil => simp at hx
  | cons y t =>
      rcases List.mem_cons.mp hx with rfl | hx
      · exact foldl_min_le_init t x
      · exact foldl_min_le_mem t y x hx

/-- A max-fold dominates its accumulator. -/
lemma le_foldl_max_init (l : List ℚ) : ∀ a : ℚ, a ≤ l.foldl max a := by
  induction l with
  | nil => intro a; simp
  | cons x t ih =>
      intro a
      simp only [List.foldl_cons]
      exact le_trans (le_max_left a x) (ih (max a x))

/-- A max-fold dominates every list member. -/
lemma le_foldl_max_mem (l : List ℚ) :
    ∀ (a x : ℚ), x ∈ l → x ≤ l.foldl max a := by
  induction l with
  | nil => intro a x hx; simp at hx
  | cons y t ih =>
      intro a x hx
      simp only [List.foldl_cons]
      rcases List.mem_cons.mp hx with rfl | hx
      · exact le_trans (le_max_right a x) (le_foldl_max_init t (max a x))
      · exact ih (max a y) x hx

/-- The list maximum dominates every member. -/
lemma le_listMax {l : List ℚ} {x : ℚ} (hx : x ∈ l) : x ≤ listMax l := by
  cases l with
  | nil => simp at hx
  | cons y t =>
      rcases List.mem_cons.mp hx with rfl | hx
      · exact le_foldl_max_init t x
      · exact le_foldl_max_mem t y x hx

/-- Every element of a group sits between the group min and max. -/
lemma groupMin_le_groupMax (W : List ℚ) (gof : ℕ → ℕ) {i : ℕ}
    (hi : i < W.length) :
    groupMin W gof (gof i) ≤ W.getD i 0 ∧
      W.getD i 0 ≤ groupMax W gof (gof i) := by
  have hmem : W.getD i 0 ∈
      (groupIdx W.length gof (gof i)).map (fun k => W.getD k 0) :=
    List.mem_map_of_mem _
      (List.mem_filter.mpr ⟨List.mem_range.mpr hi, by simp⟩)
  exact ⟨listMin_le hmem, le_listMax hmem⟩

/-- The inverse scale produced by `szPair` is positive whenever the group
is nonempty (min at most max) and `max_v` is at least one. -/
lemma szPair_scale_pos {maxv mn mx : ℚ} (hmaxv : 1 ≤ maxv) (hle : mn ≤ mx) :
    0 < (szPair maxv mn mx).1 := by
  unfold szPair
  by_cases h : |mx - mn| ≤ 1 / 10000
  · simp only [h, if_pos]
    norm_num
  · simp only [h, if_neg, if_false]
    have hd : 0 < mx - mn := by
      rcases lt_or_le 0 (mx - mn) with h1 | h1
      · exact h1
      · exfalso
        apply h
        rw [abs_of_nonpos (by linarith)]
        linarith
    have : 0 < maxv / (mx - mn) := by positivity
    simp only [lt_min_iff]
    exact ⟨this, by norm_num⟩

/-- Round-half-to-even restores integers exactly. -/
lemma roundHalfEven_intCast (k : ℤ) : roundHalfEven (k : ℚ) = k := by
  unfold roundHalfEven
  rw [Int.floor_intCast]
  norm_num

/-- A code already on the integer grid inside the clamp range is
reproduced exactly by `qcode`, as a rational. -/
lemma qcode_intCast {k : ℤ} {maxv : ℕ} (h0 : 0 ≤ k) (h1 : k ≤ (maxv : ℤ)) :
    ((qcode ((k : ℚ)) maxv : ℕ) : ℚ) = (k : ℚ) := by
  unfold qcode
  rw [roundHalfEven_intCast, min_eq_left h1, max_eq_right h0]
  exact_mod_cast Int.toNat_of_nonneg h0

/-- `max_v` is at least one on every supported width. -/
lemma one_le_maxV (nb : NBits) : 1 ≤ nb.maxV := by
  cases nb <;> decide

/-- `max_v` fits strictly below the per-code bit budget of the packing
selected for its width. -/
lemma maxV_lt_two_pow_bits (nb : NBits) :
    nb.maxV < 2 ^ (bitToPacking nb).bits := by
  cases nb <;> decide

/-- Only the 3-bit width selects the 32-bit container packing. -/
lemma bitToPacking_eq_p3 (nb : NBits) :
    bitToPacking nb = Packing.p3bit_32 ↔ nb = NBits.b3 := by
  cases nb <;> decide

/-- A clamp-round pass has one code per input element. -/
lemma qRoundList_length (W : List ℚ) (gof : ℕ → ℕ) (s z : List ℚ)
    (maxv : ℕ) : (qRoundList W gof s z maxv).length = W.length := by
  simp [qRoundList]

/-- The optimizer loop preserves the code count. -/
lemma optGo_length (shrink : ℚ → ℚ → ℚ) (W : List ℚ) (gof : ℕ → ℕ)
    (nG : ℕ) (s : List ℚ) (maxv : ℕ) :
    ∀ (fuel : ℕ) (beta prevErr : ℚ) (z : List ℚ) (best : List ℕ × List ℚ),
      best.1.length = W.length →
      (optGo shrink W gof nG s maxv fuel beta prevErr z best).1.length =
        W.length := by
  intro fuel
  induction fuel with
  | zero => intro beta prevErr z best hbest; simpa [optGo] using hbest
  | succ n ih =>
      intro beta prevErr z best hbest
      rw [optGo]
      by_cases h : prevErr < meanAbsErr (shrink beta) W gof s z maxv
      · rw [if_pos h]; exact hbest
      · rw [if_neg h]; exact ih _ _ _ _ (qRoundList_length _ _ _ _ _)

/-- The internal code tensor has one code per input element on both
paths. -/
lemma quantCodes_length (shrink : ℚ → ℚ → ℚ) (W : List ℚ) (rows cols : ℕ)
    (cfg : QuantCfg) :
    (quantCodes shrink W rows cols cfg).length = W.length := by
  unfold quantCodes quantCodesZero
  by_cases h : cfg.optimize && cfg.channelWise
  · rw [if_pos h]
    exact optGo_length _ _ _ _ _ _ _ _ _ _ _ (qRoundList_length _ _ _ _ _)
  · rw [if_neg h]
    exact qRoundList_length _ _ _ _ _

/-- The grouped working view has as many cells as the input in every
configuration (the reshape preserves the element count). -/
lemma groupedDims_mul (rows cols : ℕ) (cw : Bool) (g : ℕ) (ax : ℕ)
    (hdvd : g ∣ rows * cols) :
    (groupedDims rows cols cw (some g) ax).1 *
      (groupedDims rows cols cw (some g) ax).2 = rows * cols := by
  cases cw with
  | false => rfl
  | true =>
      by_cases h : ax = 1 <;>
        simp [groupedDims, h, Nat.div_mul_cancel hdvd,
          Nat.mul_div_cancel' hdvd]

/-- `dequantize` on a packed 3-bit meta unpacks and trims. -/
lemma dequantCodes_pack_b3 (Wq : QTensor) (meta : Meta) (p : Packing)
    (g : ℕ) (hp : meta.packing = some p) (h3 : meta.nbits = NBits.b3)
    (hg : meta.groupSize = some g) :
    dequantCodes Wq meta =
      (unpackCodes p (dequantViewInput Wq meta).data).take
        (trimRows meta * trimCols meta) := by
  simp only [dequantCodes, hp, h3, hg]
  rw [if_pos trivial]

/-- `dequantize` on a packed non-3-bit meta unpacks without trimming. -/
lemma dequantCodes_pack_not_b3 (Wq : QTensor) (meta : Meta) (p : Packing)
    (hp : meta.packing = some p) (h3 : meta.nbits ≠ NBits.b3) :
    dequantCodes Wq meta = unpackCodes p (dequantViewInput Wq meta).data := by
  simp only [dequantCodes, hp]
  rw [if_neg h3]

/-- Unpacking the tensor packed by `quantize` recovers the internal code
tensor exactly: the identity or stripe round trip for the u8 packings
(under the stripe divisibility of the layout), and the pad-pack-unpack-trim
round trip for the 3-bit packing. -/
lemma dequantCodes_quantize (shrink : ℚ → ℚ → ℚ) (W : List ℚ)
    (rows cols : ℕ) (dt : DType) (nb : NBits) (cw : Bool) (g : ℕ)
    (opt rz : Bool) (ax : ℕ) (cd : Option DType) (vf : Bool)
    (hW : W.length = rows * cols) (hdvd : g ∣ rows * cols)
    (hratio : nb = NBits.b3 ∨ (bitToPacking nb).ratio ∣ W.length) :
    dequantCodes
        (quantizeModel shrink W rows cols dt
          { nbits := nb, channelWise := cw, groupSize := some g,
            optimize := opt, roundZero := rz, axis := ax, bitpack := true,
            computeDtype := cd, viewAsFloat := vf }).1
        (quantizeModel shrink W rows cols dt
          { nbits := nb, channelWise := cw, groupSize := some g,
            optimize := opt, roundZero := rz, axis := ax, bitpack := true,
            computeDtype := cd, viewAsFloat := vf }).2 =
      quantCodes shrink W rows cols
        { nbits := nb, channelWise := cw, groupSize := some g,
          optimize := opt, roundZero := rz, axis := ax, bitpack := true,
          computeDtype := cd, viewAsFloat := vf } := by
  set cfg : QuantCfg :=
    { nbits := nb, channelWise := cw, groupSize := some g, optimize := opt,
      roundZero := rz, axis := ax, bitpack := true, computeDtype := cd,
      viewAsFloat := vf } with hcfg
  set codes := quantCodes shrink W rows cols cfg with hcodes
  have hlen : codes.length = rows * cols := by
    rw [hcodes, quantCodes_length, hW]
  have hbound : ∀ c ∈ codes, c ≤ nb.maxV := by
    intro c hc
    exact quantCodes_le shrink W rows cols cfg c hc
  set R := (groupedDims rows cols cw (some g) ax).1 with hR
  set Cc := (groupedDims rows cols cw (some g) ax).2 with hCc
  have hRC : R * Cc = rows * cols := groupedDims_mul rows cols cw g ax hdvd
  have hdata : (quantizeModel shrink W rows cols dt cfg).1.data =
      packCodes (bitToPacking nb) R Cc codes := by
    cases vf <;> rfl
  have hview : (dequantViewInput (quantizeModel shrink W rows cols dt cfg).1
      (quantizeModel shrink W rows cols dt cfg).2).data =
      packCodes (bitToPacking nb) R Cc codes := by
    cases vf <;> exact hdata
  by_cases hnb : nb = NBits.b3
  · subst hnb
    have hcl : codes.length = R * Cc := by rw [hlen, hRC]
    have hb8 : ∀ c ∈ codes, c < 8 := by
      intro c hc
      have h1 := hbound c hc
      have h2 : NBits.b3.maxV = 7 := rfl
      omega
    have htrim : trimRows (quantizeModel shrink W rows cols dt cfg).2 *
        trimCols (quantizeModel shrink W rows cols dt cfg).2 = codes.length := by
      have e1 : trimRows (quantizeModel shrink W rows cols dt cfg).2 =
          if ax = 0 then g else rows * cols / g := rfl
      have e2 : trimCols (quantizeModel shrink W rows cols dt cfg).2 =
          if ax = 0 then rows * cols / g else g := rfl
      rw [e1, e2, hlen]
      by_cases h : ax = 0
      · rw [if_pos h, if_pos h]
        exact Nat.mul_div_cancel' hdvd
      · rw [if_neg h, if_neg h]
        exact Nat.div_mul_cancel hdvd
    have hbp3 : bitToPacking NBits.b3 = Packing.p3bit_32 := rfl
    rw [dequantCodes_pack_b3 _ _ (bitToPacking NBits.b3) g rfl rfl rfl,
      hview, hbp3, unpackCodes_packCodes3 R Cc codes hcl hb8, htrim,
      List.take_left]
  · have hp : bitToPacking nb ≠ Packing.p3bit_32 := by
      intro h
      exact hnb ((bitToPacking_eq_p3 nb).mp h)
    have hrd : (bitToPacking nb).ratio ∣ codes.length := by
      rcases hratio with h | h
      · exact absurd h hnb
      · rw [hlen, ← hW]
        exact h
    have hb : ∀ c ∈ codes, c < 2 ^ (bitToPacking nb).bits := by
      intro c hc
      exact lt_of_le_of_lt (hbound c hc) (maxV_lt_two_pow_bits nb)
    rw [dequantCodes_pack_not_b3 _ _ (bitToPacking nb) rfl hnb, hview,
      unpackCodes_packCodes _ hp R Cc codes hrd hb]

/-- The configuration quantified over by the reconstruction claim:
channel-wise grouped quantization with `optimize = false` and
`bitpack = true`; width, `round_zero`, axis, compute dtype and float view
stay free. -/
def c1cfg (nb : NBits) (g : ℕ) (rz : Bool) (ax : ℕ) (cd : Option DType)
    (vf : Bool) : QuantCfg :=
  { nbits := nb, channelWise := true, groupSize := some g, optimize := false,
    roundZero := rz, axis := ax, bitpack := true, computeDtype := cd,
    viewAsFloat := vf }

/-- The group count of the C1 configuration is `numel / group_size`. -/
lemma quantNumGroups_c1 (rows cols g : ℕ) (nb : NBits) (rz : Bool) (ax : ℕ)
    (cd : Option DType) (vf : Bool) :
    quantNumGroups rows cols (c1cfg nb g rz ax cd vf) = rows * cols / g := by
  by_cases h : ax = 1 <;>
    simp [quantNumGroups, numGroups, groupedDims, c1cfg, h]

/-- The group of a flat index in the C1 configuration. -/
lemma quantGof_c1 (rows cols g : ℕ) (nb : NBits) (rz : Bool) (ax : ℕ)
    (cd : Option DType) (vf : Bool) (i : ℕ) :
    quantGof rows cols (c1cfg nb g rz ax cd vf) i =
      if ax = 1 then i / g else i % (rows * cols / g) := by
  by_cases h : ax = 1 <;>
    simp [quantGof, gIndex, groupedDims, c1cfg, h]

/-- Groups of in-range indices are in range. -/
lemma quantGof_c1_lt (rows cols g : ℕ) (nb : NBits) (rz : Bool) (ax : ℕ)
    (cd : Option DType) (vf : Bool) (hg : 0 < g) (hdvd : g ∣ rows * cols)
    {i : ℕ} (hi : i < rows * cols) :
    quantGof rows cols (c1cfg nb g rz ax cd vf) i < rows * cols / g := by
  rw [quantGof_c1]
  have hmul : g * (rows * cols / g) = rows * cols := Nat.mul_div_cancel' hdvd
  have hpos : 0 < rows * cols / g := by
    rcases Nat.eq_zero_or_pos (rows * cols / g) with h0 | hp
    · rw [h0, Nat.mul_zero] at hmul
      omega
    · exact hp
  by_cases h : ax = 1
  · rw [if_pos h]
    exact Nat.div_lt_div_of_lt_of_dvd hdvd hi
  · rw [if_neg h]
    exact Nat.mod_lt _ hpos

/-- C1: for every tensor that lies exactly on the integer grid induced by
the initial (scale, zero) computed by `quantize`, quantizing with
`optimize = false` and `bitpack = true` and dequantizing returns the
tensor itself, with the original shape restored. In this exact-rational
model the reconstruction is exact, which implies the one-ULP bound of the
claim; the stripe divisibility hypothesis reflects the layout requirement
of the sub-byte codecs (the 3-bit codec pads instead and needs none). -/
theorem claim1_grid_roundtrip (shrink : ℚ → ℚ → ℚ) (W : List ℚ)
    (rows cols g : ℕ) (nb : NBits) (rz : Bool) (ax : ℕ) (cd : Option DType)
    (vf : Bool) (dt : DType)
    (hW : W.length = rows * cols) (hg : 0 < g) (hdvd : g ∣ rows * cols)
    (hratio : nb = NBits.b3 ∨ (bitToPacking nb).ratio ∣ W.length)
    (hgrid : ∀ i < W.length, ∃ k : ℤ, 0 ≤ k ∧ k ≤ (nb.maxV : ℤ) ∧
      W.getD i 0 *
          (quantScale0 W rows cols (c1cfg nb g rz ax cd vf)).getD
            (quantGof rows cols (c1cfg nb g rz ax cd vf) i) 0 +
        (quantZero0 W rows cols (c1cfg nb g rz ax cd vf)).getD
          (quantGof rows cols (c1cfg nb g rz ax cd vf) i) 0 = (k : ℚ)) :
    (dequantizeModel
        (quantizeModel shrink W rows cols dt (c1cfg nb g rz ax cd vf)).1
        (quantizeModel shrink W rows cols dt (c1cfg nb g rz ax cd vf)).2).data
      = W ∧
    (dequantizeModel
        (quantizeModel shrink W rows cols dt (c1cfg nb g rz ax cd vf)).1
        (quantizeModel shrink W rows cols dt (c1cfg nb g rz ax cd vf)).2).shape
      = (rows, cols) := by
  refine ⟨?_, rfl⟩
  have hdq : dequantCodes
      (quantizeModel shrink W rows cols dt (c1cfg nb g rz ax cd vf)).1
      (quantizeModel shrink W rows cols dt (c1cfg nb g rz ax cd vf)).2 =
      quantCodes shrink W rows cols (c1cfg nb g rz ax cd vf) :=
    dequantCodes_quantize shrink W rows cols dt nb true g false rz ax cd vf
      hW hdvd hratio
  have hql : (quantCodes shrink W rows cols (c1cfg nb g rz ax cd vf)).length
      = W.length := quantCodes_length _ _ _ _ _
  -- the code list is the direct clamp-round pass
  have hcodes : quantCodes shrink W rows cols (c1cfg nb g rz ax cd vf) =
      qRoundList W (quantGof rows cols (c1cfg nb g rz ax cd vf))
        (quantScale0 W rows cols (c1cfg nb g rz ax cd vf))
        (quantZero0 W rows cols (c1cfg nb g rz ax cd vf)) nb.maxV := rfl
  -- abbreviations
  set cfg := c1cfg nb g rz ax cd vf with hc
  set gof := quantGof rows cols cfg with hgof
  set s0 := quantScale0 W rows cols cfg with hs0
  set z0 := quantZero0 W rows cols cfg with hz0
  set codes := quantCodes shrink W rows cols cfg with hcds
  set q := quantizeModel shrink W rows cols dt cfg with hq
  -- per-element reconstruction value
  have hmain : ∀ i, i < W.length →
      ((codes.getD i 0 : ℚ) - q.2.zero.getD (metaGof q.2 i) 0) *
        q.2.scale.getD (metaGof q.2 i) 0 = W.getD i 0 := by
    intro i hi
    have hilt : i < rows * cols := hW ▸ hi
    have hjlt : gof i < rows * cols / g :=
      quantGof_c1_lt rows cols g nb rz ax cd vf hg hdvd hilt
    -- the meta group matches the quantize group
    have hzlen : q.2.zero.length = rows * cols / g := by
      show (quantZero0 W rows cols cfg).length = _
      rw [quantZero0, List.length_map, List.length_range,
        quantNumGroups_c1]
    have hmg : metaGof q.2 i = gof i := by
      unfold metaGof
      by_cases h1 : q.2.zero.length ≤ 1
      · rw [if_pos h1]
        have : gof i = 0 := by omega
        omega
      · rw [if_neg h1]
        have e1 : q.2.groupSize = some g := rfl
        have e2 : q.2.axis = ax := rfl
        have e3 : q.2.shape = (rows, cols) := rfl
        rw [e1, e2, e3, hgof, hc, quantGof_c1]
        by_cases h : ax = 1 <;> simp [h]
    rw [hmg]
    -- stored scale and zero at the group
    have hzj : q.2.zero.getD (gof i) 0 = z0.getD (gof i) 0 := rfl
    have hsval : s0.getD (gof i) 0 =
        (initSZ W gof ((nb.maxV : ℕ) : ℚ) rz (gof i)).1 := by
      rw [hs0, quantScale0]
      have hlt : gof i < quantNumGroups rows cols cfg := by
        rw [quantNumGroups_c1]; exact hjlt
      exact getD_map_range _ _ hlt
    have hsj : q.2.scale.getD (gof i) 0 = 1 / s0.getD (gof i) 0 := by
      show ((quantScale0 W rows cols cfg).map (fun x => 1 / x)).getD (gof i) 0
        = 1 / s0.getD (gof i) 0
      rw [hs0, quantScale0, List.map_map]
      have hlt : gof i < quantNumGroups rows cols cfg := by
        rw [quantNumGroups_c1]; exact hjlt
      rw [getD_map_range _ _ hlt]
      rw [getD_map_range _ _ hlt]
      rfl
    -- positivity of the inverse scale
    have hspos : 0 < s0.getD (gof i) 0 := by
      rw [hsval]
      have hmm := groupMin_le_groupMax W gof hi
      have hmx : (1 : ℚ) ≤ ((nb.maxV : ℕ) : ℚ) := by
        exact_mod_cast one_le_maxV nb
      exact szPair_scale_pos hmx (le_trans hmm.1 hmm.2)
    -- the code at the grid point
    rcases hgrid i hi with ⟨k, hk0, hk1, hk⟩
    have hcval : ((codes.getD i 0 : ℕ) : ℚ) = (k : ℚ) := by
      rw [hcodes]
      have e : (qRoundList W gof s0 z0 nb.maxV).getD i 0 =
          qcode (W.getD i 0 * s0.getD (gof i) 0 + z0.getD (gof i) 0)
            nb.maxV := by
        unfold qRoundList
        exact getD_map_range _ _ hi
      rw [e, hk]
      exact qcode_intCast hk0 hk1
    rw [hzj, hsj, hcval]
    have hsne : s0.getD (gof i) 0 ≠ 0 := ne_of_gt hspos
    rw [← hk]
    have hring : W.getD i 0 * s0.getD (gof i) 0 + z0.getD (gof i) 0 -
        z0.getD (gof i) 0 = W.getD i 0 * s0.getD (gof i) 0 := by ring
    rw [hring, mul_one_div, mul_div_assoc, div_self hsne, mul_one]
  -- assemble the list equality
  have hlen2 : (dequantizeModel q.1 q.2).data.length = W.length := by
    show ((List.range (dequantCodes q.1 q.2).length).map _).length = _
    rw [List.length_map, List.length_range, hdq, hql]
  apply List.ext_getElem hlen2
  intro i h1 h2
  have hi : i < W.length := h2
  show ((List.range (dequantCodes q.1 q.2).length).map
      (fun i => ((( dequantCodes q.1 q.2).getD i 0 : ℚ) -
        q.2.zero.getD (metaGof q.2 i) 0) *
          q.2.scale.getD (metaGof q.2 i) 0))[i] = W[i]
  have hlr : i < ((List.range (dequantCodes q.1 q.2).length)).length := by
    rw [List.length_range, hdq, hql]
    exact hi
  rw [List.getElem_map, List.getElem_range]
  rw [hdq]
  rw [← List.getD_eq_getElem W 0 h2]
  exact hmain i hi

/-- C2: in `dequantize`, exactly when the width is 3 and a packing is set,
the unpacked buffer is trimmed along its leading axis: the first
`group_size` rows are kept for axis 0 and the first
`shape[0]*shape[1]/group_size` rows for axis 1 (a row slice keeps
`rows x trimCols` flat codes), after which the code tensor has exactly
`group_size * (numel/group_size)` codes; for every other supported width
the unpacked buffer is used untrimmed (quantize.py lines 185-194). -/
theorem claim2_trim (shrink : ℚ → ℚ → ℚ) (W : List ℚ) (rows cols : ℕ)
    (dt : DType) (nb : NBits) (cw : Bool) (g : ℕ) (opt rz : Bool) (ax : ℕ)
    (cd : Option DType) (vf : Bool)
    (hW : W.length = rows * cols) (hdvd : g ∣ rows * cols)
    (hratio : nb = NBits.b3 ∨ (bitToPacking nb).ratio ∣ W.length) :
    (nb = NBits.b3 →
      trimRows (quantizeModel shrink W rows cols dt
          { nbits := nb, channelWise := cw, groupSize := some g,
            optimize := opt, roundZero := rz, axis := ax, bitpack := true,
            computeDtype := cd, viewAsFloat := vf }).2 =
        (if ax = 0 then g else rows * cols / g) ∧
      dequantCodes
          (quantizeModel shrink W rows cols dt
            { nbits := nb, channelWise := cw, groupSize := some g,
              optimize := opt, roundZero := rz, axis := ax, bitpack := true,
              computeDtype := cd, viewAsFloat := vf }).1
          (quantizeModel shrink W rows cols dt
            { nbits := nb, channelWise := cw, groupSize := some g,
              optimize := opt, roundZero := rz, axis := ax, bitpack := true,
              computeDtype := cd, viewAsFloat := vf }).2 =
        (unpackCodes Packing.p3bit_32
            (dequantViewInput
              (quantizeModel shrink W rows cols dt
                { nbits := nb, channelWise := cw, groupSize := some g,
                  optimize := opt, roundZero := rz, axis := ax,
                  bitpack := true, computeDtype := cd,
                  viewAsFloat := vf }).1
              (quantizeModel shrink W rows cols dt
                { nbits := nb, channelWise := cw, groupSize := some g,
                  optimize := opt, roundZero := rz, axis := ax,
                  bitpack := true, computeDtype := cd,
                  viewAsFloat := vf }).2).data).take
          (trimRows (quantizeModel shrink W rows cols dt
              { nbits := nb, channelWise := cw, groupSize := some g,
                optimize := opt, roundZero := rz, axis := ax, bitpack := true,
                computeDtype := cd, viewAsFloat := vf }).2 *
            trimCols (quantizeModel shrink W rows cols dt
              { nbits := nb, channelWise := cw, groupSize := some g,
                optimize := opt, roundZero := rz, axis := ax, bitpack := true,
                computeDtype := cd, viewAsFloat := vf }).2) ∧
      (dequantCodes
          (quantizeModel shrink W rows cols dt
            { nbits := nb, channelWise := cw, groupSize := some g,
              optimize := opt, roundZero := rz, axis := ax, bitpack := true,
              computeDtype := cd, viewAsFloat := vf }).1
          (quantizeModel shrink W rows cols dt
            { nbits := nb, channelWise := cw, groupSize := some g,
              optimize := opt, roundZero := rz, axis := ax, bitpack := true,
              computeDtype := cd, viewAsFloat := vf }).2).length =
        g * (rows * cols / g)) ∧
    (nb ≠ NBits.b3 →
      dequantCodes
          (quantizeModel shrink W rows cols dt
            { nbits := nb, channelWise := cw, groupSize := some g,
              optimize := opt, roundZero := rz, axis := ax, bitpack := true,
              computeDtype := cd, viewAsFloat := vf }).1
          (quantizeModel shrink W rows cols dt
            { nbits := nb, channelWise := cw, groupSize := some g,
              optimize := opt, roundZero := rz, axis := ax, bitpack := true,
              computeDtype := cd, viewAsFloat := vf }).2 =
        unpackCodes (bitToPacking nb)
          (dequantViewInput
            (quantizeModel shrink W rows cols dt
              { nbits := nb, channelWise := cw, groupSize := some g,
                optimize := opt, roundZero := rz, axis := ax, bitpack := true,
                computeDtype := cd, viewAsFloat := vf }).1
            (quantizeModel shrink W rows cols dt
              { nbits := nb, channelWise := cw, groupSize := some g,
                optimize := opt, roundZero := rz, axis := ax, bitpack := true,
                computeDtype := cd, viewAsFloat := vf }).2).data) := by
  constructor
  · intro hnb
    subst hnb
    refine ⟨rfl, ?_, ?_⟩
    · exact dequantCodes_pack_b3 _ _ (bitToPacking NBits.b3) g rfl rfl rfl
    · rw [dequantCodes_quantize shrink W rows cols dt NBits.b3 cw g opt rz
        ax cd vf hW hdvd hratio, quantCodes_length, hW]
      exact (Nat.mul_div_cancel' hdvd).symm
  · intro hnb
    exact dequantCodes_pack_not_b3 _ _ (bitToPacking nb) rfl hnb

/-- C1 witness: the reconstruction theorem applied to the 2-bit
quantization of `[0, 1, 2, 3]` as a 2 x 2 matrix with row groups of 2,
whose rows `[0, 1]` and `[2, 3]` lie exactly on their grids
(scale 3, zeros 0 and -6). -/
theorem claim1_grid_roundtrip_witness :
    ([0, 1, 2, 3] : List ℚ).length = 2 * 2 ∧ 0 < 2 ∧ 2 ∣ 2 * 2 ∧
    (dequantizeModel
        (quantizeModel (fun _ e => e) [0, 1, 2, 3] 2 2 DType.float32
          (c1cfg NBits.b2 2 false 1 none false)).1
        (quantizeModel (fun _ e => e) [0, 1, 2, 3] 2 2 DType.float32
          (c1cfg NBits.b2 2 false 1 none false)).2).data = [0, 1, 2, 3] := by
  have hs : quantScale0 [0, 1, 2, 3] 2 2 (c1cfg NBits.b2 2 false 1 none false)
      = [3, 3] := by
    norm_num [quantScale0, quantNumGroups, numGroups, groupedDims, c1cfg,
      initSZ, szPair, groupMin, groupMax, groupIdx, listMin, listMax,
      quantGof, gIndex, List.range_succ, NBits.maxV, min_def]
  have hz : quantZero0 [0, 1, 2, 3] 2 2 (c1cfg NBits.b2 2 false 1 none false)
      = [0, -6] := by
    norm_num [quantZero0, quantNumGroups, numGroups, groupedDims, c1cfg,
      initSZ, szPair, groupMin, groupMax, groupIdx, listMin, listMax,
      quantGof, gIndex, List.range_succ, NBits.maxV, min_def]
  have hgf : ∀ i : ℕ, quantGof 2 2 (c1cfg NBits.b2 2 false 1 none false) i
      = i / 2 := by
    intro i
    rw [quantGof_c1]
    norm_num
  have hgrid : ∀ i < ([0, 1, 2, 3] : List ℚ).length, ∃ k : ℤ,
      0 ≤ k ∧ k ≤ (NBits.b2.maxV : ℤ) ∧
      ([0, 1, 2, 3] : List ℚ).getD i 0 *
          (quantScale0 [0, 1, 2, 3] 2 2
            (c1cfg NBits.b2 2 false 1 none false)).getD
            (quantGof 2 2 (c1cfg NBits.b2 2 false 1 none false) i) 0 +
        (quantZero0 [0, 1, 2, 3] 2 2
            (c1cfg NBits.b2 2 false 1 none false)).getD
          (quantGof 2 2 (c1cfg NBits.b2 2 false 1 none false) i) 0 =
        (k : ℚ) := by
    intro i hi
    rw [hs, hz, hgf]
    simp only [List.length_cons, List.length_nil] at hi
    interval_cases i
    · exact ⟨0, by norm_num, by norm_num [NBits.maxV], by norm_num⟩
    · exact ⟨3, by norm_num, by norm_num [NBits.maxV], by norm_num⟩
    · exact ⟨0, by norm_num, by norm_num [NBits.maxV], by norm_num⟩
    · exact ⟨3, by norm_num, by norm_num [NBits.maxV], by norm_num⟩
  refine ⟨by norm_num, by norm_num, by norm_num, ?_⟩
  exact (claim1_grid_roundtrip (fun _ e => e) [0, 1, 2, 3] 2 2 2 NBits.b2
    false 1 none false DType.float32 (by norm_num) (by norm_num)
    (by norm_num)
    (Or.inr (by norm_num [bitToPacking, Packing.ratio])) hgrid).1

/-- C2 witness: the trim theorem applied to a 3-bit quantization of a
2 x 2 matrix with axis-0 groups of 2 (rows padded from 2 to 10 by the
codec, trimmed back to 2 x 2 = 4 codes) and to a 2-bit quantization of
the same matrix (no trim). -/
theorem claim2_trim_witness :
    ([0, 1, 2, 3] : List ℚ).length = 2 * 2 ∧ 2 ∣ 2 * 2 ∧
    (dequantCodes
        (quantizeModel (fun _ e => e) [0, 1, 2, 3] 2 2 DType.float32
          { nbits := .b3, channelWise := true, groupSize := some 2,
            optimize := false, roundZero := false, axis := 0,
            bitpack := true, computeDtype := none, viewAsFloat := false }).1
        (quantizeModel (fun _ e => e) [0, 1, 2, 3] 2 2 DType.float32
          { nbits := .b3, channelWise := true, groupSize := some 2,
            optimize := false, roundZero := false, axis := 0,
            bitpack := true, computeDtype := none, viewAsFloat := false }).2).length
      = 2 * (2 * 2 / 2) := by
  refine ⟨by norm_num, by norm_num, ?_⟩
  exact ((claim2_trim (fun _ e => e) [0, 1, 2, 3] 2 2 DType.float32 NBits.b3
    true 2 false false 0 none false (by norm_num) (by norm_num)
    (Or.inl rfl)).1 rfl).2.2

end HQQ
